import Mathlib

/-!
Verification of the blocking / scheduling / quantization engine
`GemmHybridQuantized` (src/src/core/NEON/kernels/arm_gemm/gemm_hybrid_quantized.hpp).

The C++ class is embedded shallowly:
* machine `unsigned int` values are modelled as `Nat` (all quantities involved
  are far below `2^32` for any valid problem; C++ unsigned division is `Nat`
  floor division);
* the opaque microkernel strategy (`strategy::out_width()` etc.) becomes the
  `Strat` record of tile constants;
* the external collaborators `strategy::kernel`, `compute_row_sums` and
  `requantize_block_32` are not part of the core (the spec treats them as
  opaque interfaces), so they are modelled as arbitrary pure per-cell
  functions gathered in `ExtOps`;
* raw pointers into caller buffers become flat `Nat → Int` arrays plus
  explicit strides, and the output tensor is indexed by the canonical
  injective coordinates (multi, batch, row, col);
* the fatal `assert(_B_transposed)` becomes an `Except` error.
-/

namespace ArmGemm

/-- Modelled from the spec: `iceildiv` from `utils.hpp` (not under `src/`),
ceiling division, "ceil(M/out_height)" in the spec's words. -/
def iceildiv (a b : Nat) : Nat := (a + b - 1) / b

/-- Modelled from the spec: `roundup` from `utils.hpp` (not under `src/`),
"rounded up to a multiple of" in the spec's words. -/
def roundup (a b : Nat) : Nat := iceildiv a b * b

/-- Microkernel strategy tile constants (the opaque external strategy:
`strategy::out_width()`, `strategy::out_height()`, `strategy::k_unroll()`,
`sizeof(strategy::operand_type)`). -/
structure Strat where
  out_width : Nat
  out_height : Nat
  k_unroll : Nat
  sizeof_Toi : Nat
deriving DecidableEq

/-- Cache geometry provider (`CPUInfo::get_L1_cache_size`, `get_L2_cache_size`). -/
structure CPUInfo where
  L1_cache_size : Nat
  L2_cache_size : Nat
deriving DecidableEq

/-- Configuration override (`GemmConfig::inner_block_size`, `outer_block_size`);
a zero field means "no override", matching the C++ truthiness tests. -/
structure GemmConfig where
  inner_block_size : Nat
  outer_block_size : Nat
deriving DecidableEq

/-- Problem description (`GemmArgs`). -/
structure GemmArgs where
  ci : CPUInfo
  Msize : Nat
  Nsize : Nat
  Ksize : Nat
  nbatches : Nat
  nmulti : Nat
  cfg : Option GemmConfig
  maxthreads : Nat
deriving DecidableEq

/-- Quantization parameter block (`Requantize32`, declared in `arm_gemm.hpp`
which is not under `src/`; fields modelled from the spec's QuantizationParams
object and their uses in the source file). Pointers (`bias`,
`per_channel_*`) are modelled as opaque `Nat` tokens: the engine only
stores and copies them. -/
structure Requantize32 where
  bias : Nat
  bias_multi_stride : Nat
  a_offset : Int
  b_offset : Int
  c_offset : Int
  per_layer_left_shift : Int
  per_layer_right_shift : Int
  per_layer_mul : Int
  per_channel_requant : Bool
  per_channel_left_shifts : Nat
  per_channel_right_shifts : Nat
  per_channel_muls : Nat
  minval : Int
  maxval : Int
deriving DecidableEq

/-- `GemmHybridQuantized::compute_k_block`, lines 76-104.  The body opens with
an unconditional `return args._Ksize;` ("We don't support K blocks as we only
temporarily store 32 bit results"); everything after it is dead code, embedded
separately as `compute_k_block_heuristic`. -/
def compute_k_block (_s : Strat) (args : GemmArgs) : Nat :=
  args.Ksize

/-- The cache-driven part of the unreachable heuristic, lines 84-103. -/
def compute_k_block_heuristic_cache (s : Strat) (args : GemmArgs) : Nat :=
  let L1_size := args.ci.L1_cache_size
  let k_block := (L1_size / 2) / (s.sizeof_Toi * max s.out_width s.out_height)
  let k_block := k_block / s.k_unroll
  let k_block := max k_block 1 * s.k_unroll
  let numk_blocks := iceildiv args.Ksize k_block
  let k_block := iceildiv args.Ksize numk_blocks
  roundup k_block s.k_unroll

/-- The dead code sitting after the early `return` in `compute_k_block`,
lines 80-103 (the inner-block-size override followed by the cache heuristic).
It is never called by the live code. -/
def compute_k_block_heuristic (s : Strat) (args : GemmArgs) : Nat :=
  match args.cfg with
  | some cfg =>
    if cfg.inner_block_size ≠ 0 then cfg.inner_block_size
    else compute_k_block_heuristic_cache s args
  | none => compute_k_block_heuristic_cache s args

/-- The no-override branch of `compute_n_block`, lines 117-143. -/
def compute_n_block_default (s : Strat) (args : GemmArgs) : Nat :=
  let k_block := compute_k_block s args
  let L2_size := args.ci.L2_cache_size
  let scaled_l2_size := L2_size * 9 / 10
  let k_block_area := k_block * s.sizeof_Toi * (s.out_width + s.out_height)
  if scaled_l2_size < k_block_area then
    s.out_width
  else
    let n_block := (scaled_l2_size - k_block_area) / (s.sizeof_Toi * k_block)
    let n_block := max (n_block / s.out_width) 1 * s.out_width
    let numblocks := iceildiv args.Nsize n_block
    let n_block := iceildiv args.Nsize numblocks
    roundup n_block s.out_width

/-- `GemmHybridQuantized::compute_n_block`, lines 106-144.  With an explicit
outer-block-size override the value is divided by `out_width` (truncating),
clamped to at least one, and multiplied back. -/
def compute_n_block (s : Strat) (args : GemmArgs) : Nat :=
  match args.cfg with
  | some cfg =>
    if cfg.outer_block_size ≠ 0 then
      max (cfg.outer_block_size / s.out_width) 1 * s.out_width
    else compute_n_block_default s args
  | none => compute_n_block_default s args

/-- Modelled from the spec: `NDRange<4>` from `ndrange.hpp` (not under
`src/`).  A 4-D iteration space flattened into `[0, total_size)`; dimension 0
varies fastest, matching the `(m,batch,n,multi)` nesting declared in the
spec's §3 and the `next_dim0` stepping used by `execute`. -/
structure NDRange4 where
  s0 : Nat
  s1 : Nat
  s2 : Nat
  s3 : Nat
deriving DecidableEq

def NDRange4.total_size (r : NDRange4) : Nat := r.s0 * r.s1 * r.s2 * r.s3

def NDRange4.dim0 (r : NDRange4) (pos : Nat) : Nat := pos % r.s0

def NDRange4.dim1 (r : NDRange4) (pos : Nat) : Nat := pos / r.s0 % r.s1

def NDRange4.dim2 (r : NDRange4) (pos : Nat) : Nat := pos / (r.s0 * r.s1) % r.s2

def NDRange4.dim3 (r : NDRange4) (pos : Nat) : Nat := pos / (r.s0 * r.s1 * r.s2)

/-- The engine's const state, lines 47-70 (the raw-pointer members are
modelled at their interface: `_B_transposed` is `none` until packed weights
are bound). -/
structure Gemm where
  s : Strat
  Msize : Nat
  Nsize : Nat
  Ksize : Nat
  nbatches : Nat
  nmulti : Nat
  k_block : Nat
  n_block : Nat
  Mround : Nat
  window : NDRange4
  qp : Requantize32
  nthreads : Nat
  B_transposed : Option (Nat → Int)

/-- The constructor, lines 151-157. -/
def mkGemm (s : Strat) (args : GemmArgs) (qp : Requantize32) : Gemm :=
  { s := s
    Msize := args.Msize
    Nsize := args.Nsize
    Ksize := args.Ksize
    nbatches := args.nbatches
    nmulti := args.nmulti
    k_block := compute_k_block s args
    n_block := compute_n_block s args
    Mround := roundup args.Msize s.out_height
    window := { s0 := iceildiv args.Msize s.out_height
                s1 := args.nbatches
                s2 := iceildiv args.Nsize (compute_n_block s args)
                s3 := args.nmulti }
    qp := qp
    nthreads := args.maxthreads
    B_transposed := none }

/-- `get_window_size`, lines 160-162. -/
def get_window_size (g : Gemm) : Nat := g.window.total_size

/-- `get_col_sum_size`, lines 72-74 (`sizeof(int32_t)` = 4). -/
def get_col_sum_size (g : Gemm) : Nat := g.Nsize * g.nmulti * 4

/-- `get_B_pretransposed_array_size`, lines 266-268. -/
def get_B_pretransposed_array_size (g : Gemm) : Nat :=
  get_col_sum_size g +
    roundup g.Nsize g.s.out_width * roundup g.Ksize g.s.k_unroll * g.nmulti * g.s.sizeof_Toi

/-- `set_pretransposed_B_data`, lines 307-311 (binds the packed-panel region;
the column-bias pointer lives with the caller arrays in this model). -/
def set_pretransposed_B_data (g : Gemm) (B : Nat → Int) : Gemm :=
  { g with B_transposed := some B }

/-- `update_quantization_parameters`, lines 329-343: field-by-field copy;
`bias_multi_stride` is not in the copied list. -/
def update_quantization_parameters (qp re : Requantize32) : Requantize32 :=
  { qp with
    bias := re.bias
    a_offset := re.a_offset
    b_offset := re.b_offset
    c_offset := re.c_offset
    per_layer_left_shift := re.per_layer_left_shift
    per_layer_right_shift := re.per_layer_right_shift
    per_layer_mul := re.per_layer_mul
    per_channel_requant := re.per_channel_requant
    per_channel_left_shifts := re.per_channel_left_shifts
    per_channel_right_shifts := re.per_channel_right_shifts
    per_channel_muls := re.per_channel_muls
    minval := re.minval
    maxval := re.maxval }

def Gemm.update_quantization_parameters (g : Gemm) (re : Requantize32) : Gemm :=
  { g with qp := ArmGemm.update_quantization_parameters g.qp re }

/-- `set_quantized_bias`, lines 313-316. -/
def set_quantized_bias (g : Gemm) (bias : Nat) (bias_multi_stride : Nat) : Gemm :=
  { g with qp := { g.qp with bias := bias, bias_multi_stride := bias_multi_stride } }

end ArmGemm

namespace ArmGemm

/-! ### Arithmetic facts about `iceildiv` and `roundup` -/

theorem iceildiv_one_le {a b : Nat} (hb : 1 ≤ b) (ha : 1 ≤ a) : 1 ≤ iceildiv a b := by
  unfold iceildiv
  rw [Nat.one_le_div_iff hb]
  omega

theorem iceildiv_eq_pred_div_succ {a b : Nat} (hb : 1 ≤ b) (ha : 1 ≤ a) :
    iceildiv a b = (a - 1) / b + 1 := by
  unfold iceildiv
  have h : a + b - 1 = (a - 1) + b := by omega
  rw [h, Nat.add_div_right _ hb]

theorem roundup_dvd (a b : Nat) : b ∣ roundup a b := dvd_mul_left b (iceildiv a b)

theorem roundup_pos {a b : Nat} (hb : 1 ≤ b) (ha : 1 ≤ a) : 0 < roundup a b :=
  Nat.mul_pos (iceildiv_one_le hb ha) hb

theorem roundup_eq_self_of_dvd {a b : Nat} (h : b ∣ a) : roundup a b = a := by
  rcases h with ⟨q, rfl⟩
  rcases Nat.eq_zero_or_pos b with hb | hb
  · subst hb; simp [roundup, iceildiv]
  · unfold roundup iceildiv
    have h1 : b * q + b - 1 = (b - 1) + q * b := by
      have := Nat.mul_comm b q
      omega
    rw [h1, Nat.add_mul_div_right _ _ hb, Nat.div_eq_of_lt (by omega), Nat.zero_add]
    exact Nat.mul_comm q b

theorem roundup_add_dvd {x m b : Nat} (hb : 1 ≤ b) (h : b ∣ m) :
    roundup (x + m) b = m + roundup x b := by
  rcases h with ⟨q, rfl⟩
  unfold roundup iceildiv
  have h1 : x + b * q + b - 1 = (x + b - 1) + q * b := by
    have := Nat.mul_comm b q
    omega
  rw [h1, Nat.add_mul_div_right _ _ hb, Nat.add_mul, Nat.mul_comm b q]
  omega

/-- Shared postcondition of the Blocking Planner: every path of
`compute_n_block` yields a positive multiple of `out_width`. -/
theorem compute_n_block_pos_dvd_aux (s : Strat) (args : GemmArgs)
    (how : 1 ≤ s.out_width) (hN : 1 ≤ args.Nsize) :
    0 < compute_n_block s args ∧ s.out_width ∣ compute_n_block s args := by
  have hdflt : 0 < compute_n_block_default s args ∧
      s.out_width ∣ compute_n_block_default s args := by
    unfold compute_n_block_default
    dsimp only
    split
    · exact ⟨how, dvd_refl _⟩
    · exact ⟨roundup_pos how
        (iceildiv_one_le (iceildiv_one_le (Nat.mul_pos (le_max_right _ _) how) hN) hN),
        roundup_dvd _ _⟩
  unfold compute_n_block
  match hc : args.cfg with
  | some cfg =>
    dsimp only
    by_cases hz : cfg.outer_block_size ≠ 0
    · rw [if_pos hz]
      exact ⟨Nat.mul_pos (le_max_right _ _) how, dvd_mul_left _ _⟩
    · rw [if_neg hz]
      exact hdflt
  | none => exact hdflt

end ArmGemm

namespace ArmGemm

/-! ### Claims about the Blocking Planner and the introspection functions -/

/-- C3: for every `GemmArgs` input (any cache sizes, any configuration
override, any K), `compute_k_block` returns exactly the full K extent
`args._Ksize`; in particular the result never depends on the cache geometry
or the configuration override consumed by the heuristic after the early
return, which is therefore unreachable. -/
theorem compute_k_block_eq_Ksize (s : Strat) (args : GemmArgs) :
    compute_k_block s args = args.Ksize ∧
    ∀ (ci : CPUInfo) (cfg : Option GemmConfig),
      compute_k_block s { args with ci := ci, cfg := cfg } = args.Ksize :=
  ⟨rfl, fun _ _ => rfl⟩

/-- C4 counterexample: with `out_width = 4` and override `outer_block_size
= 10`, `compute_n_block` returns `8`, not the override rounded *up* to a
multiple of `out_width` (which would be `12`): the code truncates downwards
(`n_block /= out_width; n_block = max(n_block,1) * out_width`). -/
theorem compute_n_block_override_not_roundup :
    compute_n_block ⟨4, 4, 1, 1⟩
        { ci := ⟨32768, 262144⟩, Msize := 1, Nsize := 16, Ksize := 1, nbatches := 1,
          nmulti := 1, cfg := some ⟨0, 10⟩, maxthreads := 1 } ≠
      roundup 10 4 ∧
    compute_n_block ⟨4, 4, 1, 1⟩
        { ci := ⟨32768, 262144⟩, Msize := 1, Nsize := 16, Ksize := 1, nbatches := 1,
          nmulti := 1, cfg := some ⟨0, 10⟩, maxthreads := 1 } = 8 ∧
    roundup 10 4 = 12 := by
  refine ⟨by decide, by decide, by decide⟩

/-- C4 (amended): for every `GemmArgs` carrying an explicit outer-block-size
override, `compute_n_block` returns the override divided by `out_width`
(truncating), clamped to at least one, times `out_width` — i.e. the override
rounded *down* to a multiple of `out_width`, but never below one full
`out_width`. -/
theorem compute_n_block_override (s : Strat) (args : GemmArgs) (cfg : GemmConfig)
    (hc : args.cfg = some cfg) (hnz : cfg.outer_block_size ≠ 0) :
    compute_n_block s args = max (cfg.outer_block_size / s.out_width) 1 * s.out_width := by
  unfold compute_n_block
  rw [hc]
  dsimp only
  rw [if_pos hnz]

theorem compute_n_block_override_witness :
    compute_n_block ⟨4, 4, 1, 1⟩
        { ci := ⟨32768, 262144⟩, Msize := 1, Nsize := 16, Ksize := 1, nbatches := 1,
          nmulti := 1, cfg := some ⟨0, 10⟩, maxthreads := 1 } =
      max (10 / 4) 1 * 4 :=
  compute_n_block_override _ _ ⟨0, 10⟩ rfl (by decide)

/-- C5: for every `GemmArgs` input (with or without an override), the value
returned by `compute_n_block` is strictly positive and an exact multiple of
the microkernel output width.  The hypotheses `1 ≤ sizeof_Toi` and
`1 ≤ Ksize` rule out the divisions by zero that would be undefined behaviour
in the C++ source. -/
theorem compute_n_block_pos_dvd (s : Strat) (args : GemmArgs)
    (how : 1 ≤ s.out_width) (hsz : 1 ≤ s.sizeof_Toi)
    (hN : 1 ≤ args.Nsize) (hK : 1 ≤ args.Ksize) :
    0 < compute_n_block s args ∧ s.out_width ∣ compute_n_block s args :=
  compute_n_block_pos_dvd_aux s args how hN

theorem compute_n_block_pos_dvd_witness :
    0 < compute_n_block ⟨4, 4, 1, 1⟩
        { ci := ⟨32768, 262144⟩, Msize := 7, Nsize := 130, Ksize := 64, nbatches := 1,
          nmulti := 2, cfg := none, maxthreads := 1 } ∧
    (4 : Nat) ∣ compute_n_block ⟨4, 4, 1, 1⟩
        { ci := ⟨32768, 262144⟩, Msize := 7, Nsize := 130, Ksize := 64, nbatches := 1,
          nmulti := 2, cfg := none, maxthreads := 1 } :=
  compute_n_block_pos_dvd _ _ (by decide) (by decide) (by decide) (by decide)

/-- C6: `get_window_size` returns exactly
`ceil(M/out_height) * nbatches * ceil(N/n_block) * nmulti`, where `n_block`
is the value chosen by the Blocking Planner (`compute_n_block`). -/
theorem get_window_size_eq (s : Strat) (args : GemmArgs) (qp : Requantize32) :
    get_window_size (mkGemm s args qp) =
      iceildiv args.Msize s.out_height * args.nbatches *
        iceildiv args.Nsize (compute_n_block s args) * args.nmulti :=
  rfl

/-- C7: `get_B_pretransposed_array_size` returns exactly the column-bias
region (`N * nmulti * 4` bytes) plus the packed-panel region
(`nmulti * roundup(N, out_width) * roundup(K, k_unroll) * sizeof(operand)`
bytes). -/
theorem get_B_pretransposed_array_size_eq (s : Strat) (args : GemmArgs) (qp : Requantize32) :
    get_B_pretransposed_array_size (mkGemm s args qp) =
      args.Nsize * args.nmulti * 4 +
        args.nmulti *
          (roundup args.Nsize s.out_width * roundup args.Ksize s.k_unroll * s.sizeof_Toi) := by
  unfold get_B_pretransposed_array_size get_col_sum_size mkGemm
  dsimp only
  ring

/-- C9: `update_quantization_parameters` overwrites `bias`, the three
offsets, the per-layer shift/mul, the per-channel flag and arrays and the
clamp bounds but leaves `bias_multi_stride` unchanged; `set_quantized_bias`
is the operation that sets `bias_multi_stride`. -/
theorem update_quantization_parameters_frame (g : Gemm) (re : Requantize32) :
    (g.update_quantization_parameters re).qp.bias_multi_stride = g.qp.bias_multi_stride ∧
    (g.update_quantization_parameters re).qp.bias = re.bias ∧
    (g.update_quantization_parameters re).qp.a_offset = re.a_offset ∧
    (g.update_quantization_parameters re).qp.b_offset = re.b_offset ∧
    (g.update_quantization_parameters re).qp.c_offset = re.c_offset ∧
    (g.update_quantization_parameters re).qp.per_layer_left_shift = re.per_layer_left_shift ∧
    (g.update_quantization_parameters re).qp.per_layer_right_shift = re.per_layer_right_shift ∧
    (g.update_quantization_parameters re).qp.per_layer_mul = re.per_layer_mul ∧
    (g.update_quantization_parameters re).qp.per_channel_requant = re.per_channel_requant ∧
    (g.update_quantization_parameters re).qp.per_channel_left_shifts = re.per_channel_left_shifts ∧
    (g.update_quantization_parameters re).qp.per_channel_right_shifts = re.per_channel_right_shifts ∧
    (g.update_quantization_parameters re).qp.per_channel_muls = re.per_channel_muls ∧
    (g.update_quantization_parameters re).qp.minval = re.minval ∧
    (g.update_quantization_parameters re).qp.maxval = re.maxval ∧
    ∀ (b m : Nat),
      (set_quantized_bias g b m).qp.bias_multi_stride = m ∧
      (set_quantized_bias g b m).qp.bias = b :=
  ⟨rfl, rfl, rfl, rfl, rfl, rfl, rfl, rfl, rfl, rfl, rfl, rfl, rfl, rfl,
    fun _ _ => ⟨rfl, rfl⟩⟩

end ArmGemm

namespace ArmGemm

/-! ### The Execution Engine (`execute`, lines 170-246)

The hot loop is embedded as a state transformer.  The output tensor is
indexed by the canonical coordinates `(multi, batch, row, col)`; the
per-thread scratch workspace is a flat array of 32-bit accumulators
(`Tri`), written by the microkernel at
`threadid * out_height * Nsize + i * (nmax-n0) + j` exactly as in the
source.  The three external collaborators are opaque pure functions. -/

/-- Output tensor coordinates: (multi, batch, row, col). -/
abbrev OutIdx : Type := Nat × Nat × Nat × Nat

/-- Caller-owned arrays bound to the engine: the A tensor (flat, with the
strides `_lda`, `_A_batch_stride`, `_A_multi_stride`) and the column-bias
region written by `requantize_bias`. -/
structure Arrays where
  A : Nat → Int
  lda : Nat
  A_batch_stride : Nat
  A_multi_stride : Nat
  col_bias : Nat → Int

/-- Modelled from the spec: the three external collaborators invoked by the
hot loop (`strategy::kernel`, `compute_row_sums`, `requantize_block_32` are
declared elsewhere in the repository, not under `src/`).  Each is an
arbitrary pure function of exactly the data the source passes to it:
* `kernelVal a lda b rows cols k i j` — the 32-bit accumulator produced at
  tile position `(i, j)` from the A slice `a`, its leading dimension, and the
  packed B panel `b`;
* `rowSumVal qp K rows a lda i` — the per-row sum of A inputs over all of K;
* `requantVal qp acc rowsum colbias n0 j` — the requantized output value for
  one cell given its accumulator, row-sum and column-bias corrections, the
  first-column index `n0` and the local column `j`. -/
structure ExtOps where
  kernelVal : (Nat → Int) → Nat → (Nat → Int) → Nat → Nat → Nat → Nat → Nat → Int
  rowSumVal : Requantize32 → Nat → Nat → (Nat → Int) → Nat → Nat → Int
  requantVal : Requantize32 → Int → Int → Int → Nat → Nat → Int

/-- Mutable state touched by `execute`: the output tensor, the scratch
workspace, and a counter of microkernel invocations (used to express that an
empty work range never calls the kernel). -/
structure State where
  out : OutIdx → Int
  ws : Nat → Int
  kernelCalls : Nat

/-- Writing a `rows × cols` tile (row stride `cols`) at offset `base` of a
flat buffer, the layout `strat.kernel` uses for `result_buffer`. -/
def blockWrite (ws : Nat → Int) (base rows cols : Nat) (v : Nat → Nat → Int) : Nat → Int :=
  fun w =>
    if base ≤ w ∧ w < base + rows * cols then v ((w - base) / cols) ((w - base) % cols)
    else ws w

/-- WorkItem coordinates, lines 201-206 (`p.dim(0..3)` of the window
iterator decoded into row range, batch, column range and multi). -/
def wi_m_start (g : Gemm) (pos : Nat) : Nat := g.window.dim0 pos * g.s.out_height

def wi_m_end (g : Gemm) (pos : Nat) : Nat :=
  min ((g.window.dim0 pos + 1) * g.s.out_height) g.Msize

def wi_batch (g : Gemm) (pos : Nat) : Nat := g.window.dim1 pos

def wi_n0 (g : Gemm) (pos : Nat) : Nat := g.window.dim2 pos * g.n_block

def wi_nmax (g : Gemm) (pos : Nat) : Nat := min (wi_n0 g pos + g.n_block) g.Nsize

def wi_multi (g : Gemm) (pos : Nat) : Nat := g.window.dim3 pos

/-- The closed-form panel offset the Execution Engine computes, lines
210-213: `b_panel = _B_transposed + multi * roundup(N, out_width) *
roundup(K, k_unroll) + k0 * roundup(N, out_width) + n0 * kern_k`. -/
def bPanelOffset (g : Gemm) (multi k0 n0 kern_k : Nat) : Nat :=
  multi * (roundup g.Nsize g.s.out_width * roundup g.Ksize g.s.k_unroll) +
    k0 * roundup g.Nsize g.s.out_width + n0 * kern_k

/-- Base offset of the WorkItem's A tile, as passed to `strat.kernel` and
`compute_row_sums` (lines 219, 231): `_Aptr + multi * _A_multi_stride +
batch * _A_batch_stride + m_start * _lda` (the kernel additionally skips
`k0` along the row). -/
def wiAOff (g : Gemm) (ar : Arrays) (pos : Nat) : Nat :=
  wi_multi g pos * ar.A_multi_stride + wi_batch g pos * ar.A_batch_stride +
    wi_m_start g pos * ar.lda

/-- The accumulator tile produced by the microkernel call of line 219. -/
def tileVal (E : ExtOps) (g : Gemm) (ar : Arrays) (B : Nat → Int)
    (k0 kern_k : Nat) (pos : Nat) : Nat → Nat → Int :=
  fun i j =>
    E.kernelVal (fun idx => ar.A (wiAOff g ar pos + k0 + idx)) ar.lda
      (fun idx => B (bPanelOffset g (wi_multi g pos) k0 (wi_n0 g pos) kern_k + idx))
      (wi_m_end g pos - wi_m_start g pos) (wi_nmax g pos - wi_n0 g pos)
      (min (k0 + g.k_block) g.Ksize - k0) i j

/-- The per-row input sums of line 230 (`compute_row_sums` over all of K). -/
def rowSum (E : ExtOps) (g : Gemm) (ar : Arrays) (pos : Nat) (i : Nat) : Int :=
  E.rowSumVal g.qp g.Ksize (wi_m_end g pos - wi_m_start g pos)
    (fun idx => ar.A (wiAOff g ar pos + idx)) ar.lda i

/-- The output cells owned by the WorkItem at `pos`: requantize_block_32
(line 240) writes the block `[m_start, m_end) × [n0, nmax)` of batch `batch`
and multi `multi`. -/
def inCells (g : Gemm) (pos : Nat) (c : OutIdx) : Prop :=
  c.1 = wi_multi g pos ∧ c.2.1 = wi_batch g pos ∧
    wi_m_start g pos ≤ c.2.2.1 ∧ c.2.2.1 < wi_m_end g pos ∧
    wi_n0 g pos ≤ c.2.2.2 ∧ c.2.2.2 < wi_nmax g pos

instance (g : Gemm) (pos : Nat) (c : OutIdx) : Decidable (inCells g pos c) := by
  unfold inCells; infer_instance

/-- One iteration of the do-while over WorkItems, lines 200-244: run the
microkernel into this thread's scratch slice, compute the row sums, and
requantize the scratch block into the output tensor. -/
def processWorkItem (E : ExtOps) (g : Gemm) (ar : Arrays) (B : Nat → Int)
    (tid k0 kern_k : Nat) (st : State) (pos : Nat) : State :=
  let rows := wi_m_end g pos - wi_m_start g pos
  let cols := wi_nmax g pos - wi_n0 g pos
  let resOff := tid * g.s.out_height * g.Nsize
  let ws2 := blockWrite st.ws resOff rows cols (tileVal E g ar B k0 kern_k pos)
  { out := fun c =>
      if inCells g pos c then
        E.requantVal g.qp
          (ws2 (resOff + (c.2.2.1 - wi_m_start g pos) * cols + (c.2.2.2 - wi_n0 g pos)))
          (rowSum E g ar pos (c.2.2.1 - wi_m_start g pos))
          (ar.col_bias (wi_multi g pos * g.Nsize + wi_n0 g pos + (c.2.2.2 - wi_n0 g pos)))
          (wi_n0 g pos) (c.2.2.2 - wi_n0 g pos)
      else st.out c
    ws := ws2
    kernelCalls := st.kernelCalls + 1 }

/-- The K-block starting offsets visited by `for (k0 = 0; k0 < K; k0 += kb)`
(lines 190, 289; well defined because `_k_block = _Ksize`). -/
def kIndices (Ksize k_block : Nat) : List Nat :=
  (List.range (iceildiv Ksize k_block)).map (· * k_block)

/-- The body of `execute` once the packed-B pointer is known: the outer K
loop, the early return on an exhausted iterator, and the inner do-while over
the WorkItems `[start, stop)` of the assigned sub-range. -/
def execRange (E : ExtOps) (g : Gemm) (ar : Arrays) (B : Nat → Int)
    (tid start stop : Nat) (st : State) : State :=
  (kIndices g.Ksize g.k_block).foldl
    (fun s k0 =>
      if stop ≤ start then s
      else
        let kmax := min (k0 + g.k_block) g.Ksize
        let kern_k := roundup (kmax - k0) g.s.k_unroll
        (List.range' start (stop - start)).foldl
          (fun s2 pos => processWorkItem E g ar B tid k0 kern_k s2 pos) s)
    st

/-- Failure modes of `execute`; the only one in this core is the fatal
`assert(_B_transposed)` of line 184. -/
inductive GemmError where
  | assertBTransposedNull : GemmError
deriving DecidableEq

/-- `execute`, lines 170-246.  Before touching the packed-B buffer the
engine asserts that it has been bound (`assert(_B_transposed)`); a violated
assertion is a fatal error carrying no partial result. -/
def execute (E : ExtOps) (g : Gemm) (ar : Arrays) (tid start stop : Nat)
    (st : State) : Except GemmError State :=
  match g.B_transposed with
  | none => .error .assertBTransposedNull
  | some B => .ok (execRange E g ar B tid start stop st)

/-- A scheduler run: one `execute` call per `(threadid, start, stop)` job,
in list order. -/
def runJobs (E : ExtOps) (g : Gemm) (ar : Arrays) :
    List (Nat × Nat × Nat) → State → Except GemmError State
  | [], st => .ok st
  | j :: js, st =>
    match execute E g ar j.1 j.2.1 j.2.2 st with
    | .error e => .error e
    | .ok st2 => runJobs E g ar js st2

end ArmGemm

namespace ArmGemm

theorem foldl_self {α : Type _} {β : Type _} (l : List α) (b : β) :
    l.foldl (fun x _ => x) b = b := by
  induction l generalizing b with
  | nil => rfl
  | cons a l ih => exact ih b

/-- C8: calling `execute` before packed weights have been bound
(`_B_transposed` still null, i.e. on a freshly constructed engine) fails
immediately with the fatal assertion, without reading the packed-B buffer;
once packed weights are bound the assertion never fires and `execute`
returns normally. -/
theorem execute_asserts_B_transposed (E : ExtOps) (s : Strat) (args : GemmArgs)
    (qp : Requantize32) (ar : Arrays) (tid start stop : Nat) (st : State) :
    execute E (mkGemm s args qp) ar tid start stop st =
      .error .assertBTransposedNull ∧
    ∀ B : Nat → Int, ∃ st2 : State,
      execute E (set_pretransposed_B_data (mkGemm s args qp) B) ar tid start stop st =
        .ok st2 :=
  ⟨rfl, fun B => ⟨execRange E (set_pretransposed_B_data (mkGemm s args qp) B) ar B
      tid start stop st, rfl⟩⟩

/-- C10: an `execute` call whose work range is empty (start position equal
to end position) returns with the state untouched: no microkernel call, no
output-tensor write, no workspace write. -/
theorem execute_empty_range (E : ExtOps) (g : Gemm) (ar : Arrays)
    (tid start : Nat) (st : State) (B : Nat → Int)
    (hB : g.B_transposed = some B) :
    execute E g ar tid start start st = .ok st := by
  unfold execute
  rw [hB]
  dsimp only
  have h : execRange E g ar B tid start start st = st := by
    unfold execRange
    simp only [le_refl, if_true]
    exact foldl_self _ _
  rw [h]

/-! Concrete instances used by the witnesses. -/

def cStrat : Strat := ⟨2, 2, 1, 1⟩

def cArgs : GemmArgs :=
  { ci := ⟨32768, 262144⟩, Msize := 3, Nsize := 3, Ksize := 2, nbatches := 1,
    nmulti := 1, cfg := some ⟨0, 2⟩, maxthreads := 2 }

def cQp : Requantize32 :=
  { bias := 0, bias_multi_stride := 0, a_offset := 1, b_offset := 2, c_offset := 3,
    per_layer_left_shift := 0, per_layer_right_shift := 4, per_layer_mul := 5,
    per_channel_requant := false, per_channel_left_shifts := 0,
    per_channel_right_shifts := 0, per_channel_muls := 0, minval := -128, maxval := 127 }

def cExt : ExtOps :=
  { kernelVal := fun a _ b _ _ _ i j => a i * b j
    rowSumVal := fun _ _ _ a _ i => a i
    requantVal := fun _ acc rs cb _ j => acc + rs + cb + (j : Int) }

def cArrays : Arrays :=
  { A := fun i => (i : Int), lda := 2, A_batch_stride := 6, A_multi_stride := 6,
    col_bias := fun i => (i : Int) }

def cState : State := { out := fun _ => 0, ws := fun _ => 0, kernelCalls := 0 }

def cB : Nat → Int := fun i => (i : Int)

theorem execute_empty_range_witness :
    execute cExt (set_pretransposed_B_data (mkGemm cStrat cArgs cQp) cB) cArrays
        0 5 5 cState = .ok cState :=
  execute_empty_range cExt _ cArrays 0 5 cState cB rfl

end ArmGemm

namespace ArmGemm

/-! ### Determinism of `execute` (partition independence)

Each WorkItem writes a fixed set of output cells with values that depend
only on the immutable inputs (A, packed B, column bias, quantization
parameters) — not on the incoming output tensor, the scratch contents, or
the thread id.  Distinct WorkItems own disjoint cell sets, so any ordering
of any partition of the window produces the same output tensor. -/

theorem blockWrite_read (ws : Nat → Int) (base rows cols : Nat) (v : Nat → Nat → Int)
    {i j : Nat} (hi : i < rows) (hj : j < cols) :
    blockWrite ws base rows cols v (base + i * cols + j) = v i j := by
  have hcols : 0 < cols := Nat.lt_of_le_of_lt (Nat.zero_le _) hj
  have hlt : i * cols + j < rows * cols := by
    calc i * cols + j < i * cols + cols := by omega
    _ = (i + 1) * cols := by ring
    _ ≤ rows * cols := Nat.mul_le_mul_right _ (by omega)
  unfold blockWrite
  rw [if_pos ⟨by omega, by omega⟩]
  have hsub : base + i * cols + j - base = j + i * cols := by omega
  rw [hsub, Nat.add_mul_div_right _ _ hcols, Nat.div_eq_of_lt hj, Nat.zero_add,
    Nat.add_mul_mod_self_right, Nat.mod_eq_of_lt hj]

/-- The value a WorkItem writes at output cell `(·,·,r,c)`: a pure function
of the immutable inputs, independent of the state and of the thread id. -/
def cellVal (E : ExtOps) (g : Gemm) (ar : Arrays) (B : Nat → Int)
    (k0 kern_k : Nat) (pos : Nat) (r c : Nat) : Int :=
  E.requantVal g.qp
    (tileVal E g ar B k0 kern_k pos (r - wi_m_start g pos) (c - wi_n0 g pos))
    (rowSum E g ar pos (r - wi_m_start g pos))
    (ar.col_bias (wi_multi g pos * g.Nsize + wi_n0 g pos + (c - wi_n0 g pos)))
    (wi_n0 g pos) (c - wi_n0 g pos)

theorem processWorkItem_out (E : ExtOps) (g : Gemm) (ar : Arrays) (B : Nat → Int)
    (tid k0 kern_k : Nat) (st : State) (pos : Nat) (c : OutIdx) :
    (processWorkItem E g ar B tid k0 kern_k st pos).out c =
      if inCells g pos c then cellVal E g ar B k0 kern_k pos c.2.2.1 c.2.2.2
      else st.out c := by
  unfold processWorkItem
  dsimp only
  by_cases hc : inCells g pos c
  · rw [if_pos hc, if_pos hc]
    obtain ⟨hmu, hb, hms, hme, hn0, hnm⟩ := hc
    have hi : c.2.2.1 - wi_m_start g pos < wi_m_end g pos - wi_m_start g pos := by omega
    have hj : c.2.2.2 - wi_n0 g pos < wi_nmax g pos - wi_n0 g pos := by omega
    rw [blockWrite_read _ _ _ _ _ hi hj]
    rfl
  · rw [if_neg hc, if_neg hc]

end ArmGemm

namespace ArmGemm

/-- The flattened-position decode of the window iterator is injective: equal
coordinates in all four dimensions force equal positions. -/
theorem NDRange4.dims_inj (r : NDRange4) {p q : Nat}
    (h0 : r.dim0 p = r.dim0 q) (h1 : r.dim1 p = r.dim1 q)
    (h2 : r.dim2 p = r.dim2 q) (h3 : r.dim3 p = r.dim3 q) : p = q := by
  simp only [NDRange4.dim0, NDRange4.dim1, NDRange4.dim2, NDRange4.dim3] at h0 h1 h2 h3
  have e1 : p % (r.s0 * r.s1) = q % (r.s0 * r.s1) := by
    rw [@Nat.mod_mul r.s0 r.s1 p, @Nat.mod_mul r.s0 r.s1 q, h0, h1]
  have e2 : p % (r.s0 * r.s1 * r.s2) = q % (r.s0 * r.s1 * r.s2) := by
    rw [@Nat.mod_mul (r.s0 * r.s1) r.s2 p, @Nat.mod_mul (r.s0 * r.s1) r.s2 q, e1, h2]
  calc p = r.s0 * r.s1 * r.s2 * (p / (r.s0 * r.s1 * r.s2)) + p % (r.s0 * r.s1 * r.s2) :=
      (Nat.div_add_mod p _).symm
    _ = r.s0 * r.s1 * r.s2 * (q / (r.s0 * r.s1 * r.s2)) + q % (r.s0 * r.s1 * r.s2) := by
      rw [h3, e2]
    _ = q := Nat.div_add_mod q _

/-- A value lying in the clipped tile `[t*w, min((t+1)*w, M))` determines the
tile index `t`. -/
theorem tile_index_unique {t t' v w M : Nat}
    (h1 : t * w ≤ v) (h2 : v < min ((t + 1) * w) M)
    (h3 : t' * w ≤ v) (h4 : v < min ((t' + 1) * w) M) : t = t' := by
  rcases Nat.eq_zero_or_pos w with hw | hw
  · subst hw
    rw [Nat.mul_zero, Nat.zero_min] at h2
    omega
  · have ha : v / w = t :=
      Nat.div_eq_of_lt_le h1 (Nat.lt_of_lt_of_le h2 (Nat.min_le_left _ _))
    have hb : v / w = t' :=
      Nat.div_eq_of_lt_le h3 (Nat.lt_of_lt_of_le h4 (Nat.min_le_left _ _))
    omega

/-- Distinct WorkItems own disjoint output-cell sets (the spec's
"WorkItems never overlap in (row, batch, column, multi) space"). -/
theorem inCells_disjoint (g : Gemm) {p q : Nat} {c : OutIdx}
    (hp : inCells g p c) (hq : inCells g q c) : p = q := by
  obtain ⟨hmu, hb, hms, hme, hn0, hnm⟩ := hp
  obtain ⟨hmu', hb', hms', hme', hn0', hnm'⟩ := hq
  apply NDRange4.dims_inj g.window
  · -- dim0 from the row range
    unfold wi_m_start at hms hms'
    unfold wi_m_end at hme hme'
    exact tile_index_unique hms hme hms' hme'
  · -- dim1 is the batch
    unfold wi_batch at hb hb'
    omega
  · -- dim2 from the column range
    unfold wi_nmax at hnm hnm'
    unfold wi_n0 at hn0 hnm hn0' hnm'
    rw [show g.window.dim2 p * g.n_block + g.n_block = (g.window.dim2 p + 1) * g.n_block
      by ring] at hnm
    rw [show g.window.dim2 q * g.n_block + g.n_block = (g.window.dim2 q + 1) * g.n_block
      by ring] at hnm'
    exact tile_index_unique hn0 hnm hn0' hnm'
  · -- dim3 is the multi
    unfold wi_multi at hmu hmu'
    omega

end ArmGemm

namespace ArmGemm

/-- One scheduler job flattened into (threadid, position) pairs. -/
def jobPairs (jobs : List (Nat × Nat × Nat)) : List (Nat × Nat) :=
  jobs.flatMap (fun j => (List.range' j.2.1 (j.2.2 - j.2.1)).map (fun pos => (j.1, pos)))

/-- Stepping the engine over one (threadid, position) pair with `k0 = 0`. -/
def pairStep (E : ExtOps) (g : Gemm) (ar : Arrays) (B : Nat → Int) (kern_k : Nat)
    (st : State) (tp : Nat × Nat) : State :=
  processWorkItem E g ar B tp.1 0 kern_k st tp.2

/-- The output tensor after folding any duplicate-free list of
(threadid, position) pairs is characterised cell-by-cell by the unique
WorkItem owning the cell — independent of order, thread ids and the
incoming scratch contents. -/
theorem foldl_pairStep_out (E : ExtOps) (g : Gemm) (ar : Arrays) (B : Nat → Int)
    (kern_k : Nat) :
    ∀ (l : List (Nat × Nat)) (st : State) (c : OutIdx),
      (l.map Prod.snd).Nodup →
      ((l.foldl (pairStep E g ar B kern_k) st).out c =
        match l.find? (fun tp => decide (inCells g tp.2 c)) with
        | some tp => cellVal E g ar B 0 kern_k tp.2 c.2.2.1 c.2.2.2
        | none => st.out c) := by
  intro l
  induction l with
  | nil => intro st c _; rfl
  | cons tp l ih =>
    intro st c hnd
    rw [List.map_cons, List.nodup_cons] at hnd
    rw [List.foldl_cons, ih _ c hnd.2]
    by_cases hc : inCells g tp.2 c
    · have hfind : (tp :: l).find? (fun tp2 => decide (inCells g tp2.2 c)) = some tp :=
        List.find?_cons_of_pos l (by simpa using hc)
      have hrest : l.find? (fun tp2 => decide (inCells g tp2.2 c)) = none := by
        rw [List.find?_eq_none]
        intro x hx hpx
        have h2 : inCells g x.2 c := of_decide_eq_true hpx
        have hxx : x.2 = tp.2 := inCells_disjoint g h2 hc
        have hmem : x.2 ∈ l.map Prod.snd := List.mem_map_of_mem _ hx
        rw [hxx] at hmem
        exact hnd.1 hmem
      rw [hfind, hrest]
      dsimp only
      unfold pairStep
      rw [processWorkItem_out, if_pos hc]
    · have hfind : (tp :: l).find? (fun tp2 => decide (inCells g tp2.2 c)) =
          l.find? (fun tp2 => decide (inCells g tp2.2 c)) :=
        List.find?_cons_of_neg l (by simpa using hc)
      rw [hfind]
      cases hf : l.find? (fun tp2 => decide (inCells g tp2.2 c)) with
      | some x => rfl
      | none =>
        dsimp only
        unfold pairStep
        rw [processWorkItem_out, if_neg hc]

/-- With the engine's `k_block = Ksize ≥ 1` policy, `execRange` is exactly a
fold of `processWorkItem` (with `k0 = 0`) over the positions of the
sub-range, all on the caller's thread id. -/
theorem execRange_eq_foldl (E : ExtOps) (g : Gemm) (ar : Arrays) (B : Nat → Int)
    (tid start stop : Nat) (st : State)
    (hkb : g.k_block = g.Ksize) (hK : 1 ≤ g.Ksize) :
    execRange E g ar B tid start stop st =
      ((List.range' start (stop - start)).map (fun pos => (tid, pos))).foldl
        (pairStep E g ar B (roundup g.Ksize g.s.k_unroll)) st := by
  have hki : kIndices g.Ksize g.k_block = [0] := by
    rw [hkb]
    unfold kIndices iceildiv
    have h1 : (g.Ksize + g.Ksize - 1) / g.Ksize = 1 := by
      rw [Nat.div_eq_of_lt_le] <;> omega
    rw [h1]
    simp [List.range_succ]
  unfold execRange
  rw [hki]
  rw [List.foldl_cons, List.foldl_nil]
  by_cases hab : stop ≤ start
  · rw [if_pos hab]
    have h0 : stop - start = 0 := by omega
    rw [h0]
    rfl
  · rw [if_neg hab]
    dsimp only
    rw [List.foldl_map]
    have hkmax : min (0 + g.k_block) g.Ksize = g.Ksize := by
      rw [Nat.zero_add, hkb, Nat.min_self]
    rw [hkmax, Nat.sub_zero]
    rfl

/-- `runJobs` with bound packed weights never fails and equals the pure fold
of `execRange` over the job list. -/
theorem runJobs_eq_foldl (E : ExtOps) (g : Gemm) (ar : Arrays) (B : Nat → Int)
    (hB : g.B_transposed = some B) :
    ∀ (jobs : List (Nat × Nat × Nat)) (st : State),
      runJobs E g ar jobs st =
        Except.ok (jobs.foldl (fun s j => execRange E g ar B j.1 j.2.1 j.2.2 s) st) := by
  intro jobs
  induction jobs with
  | nil => intro st; rfl
  | cons j js ih =>
    intro st
    show (match execute E g ar j.1 j.2.1 j.2.2 st with
      | Except.error e => Except.error e
      | Except.ok st2 => runJobs E g ar js st2) = _
    unfold execute
    rw [hB]
    dsimp only
    rw [ih]
    rfl

/-- Folding `execRange` job-by-job is the same as folding the flattened
(threadid, position) pairs. -/
theorem foldl_jobs_eq_foldl_pairs (E : ExtOps) (g : Gemm) (ar : Arrays) (B : Nat → Int)
    (hkb : g.k_block = g.Ksize) (hK : 1 ≤ g.Ksize) :
    ∀ (jobs : List (Nat × Nat × Nat)) (st : State),
      jobs.foldl (fun s j => execRange E g ar B j.1 j.2.1 j.2.2 s) st =
        (jobPairs jobs).foldl (pairStep E g ar B (roundup g.Ksize g.s.k_unroll)) st := by
  intro jobs
  induction jobs with
  | nil => intro st; rfl
  | cons j js ih =>
    intro st
    rw [List.foldl_cons]
    show js.foldl _ (execRange E g ar B j.1 j.2.1 j.2.2 st) = _
    rw [ih, execRange_eq_foldl E g ar B _ _ _ _ hkb hK]
    unfold jobPairs
    rw [List.flatMap_cons, List.foldl_append]

end ArmGemm

namespace ArmGemm

/-- `find?` only depends on the element set once the predicate has at most
one satisfying element. -/
theorem find?_congr_unique {p : Nat → Bool} {l1 l2 : List Nat}
    (hmem : ∀ x, x ∈ l1 ↔ x ∈ l2)
    (huniq : ∀ x y, p x = true → p y = true → x = y) :
    l1.find? p = l2.find? p := by
  cases h1 : l1.find? p with
  | none =>
    rw [List.find?_eq_none] at h1
    symm
    rw [List.find?_eq_none]
    intro x hx
    exact h1 x ((hmem x).mpr hx)
  | some a =>
    have hpa := List.find?_some h1
    have hma := List.mem_of_find?_eq_some h1
    have hex : ∃ x ∈ l2, p x = true := ⟨a, (hmem a).mp hma, hpa⟩
    have hsome := List.find?_isSome.mpr hex
    cases h2 : l2.find? p with
    | none => rw [h2] at hsome; simp at hsome
    | some b =>
      have hpb := List.find?_some h2
      rw [huniq a b hpa hpb]

theorem find?_map_snd (l : List (Nat × Nat)) (p : Nat → Bool) :
    (l.map Prod.snd).find? p =
      Option.map Prod.snd (l.find? (fun tp => p tp.2)) := by
  rw [List.find?_map]
  rfl

/-- When K is zero the K loop never runs and `execute`'s body is a no-op. -/
theorem execRange_eq_id_of_K0 (E : ExtOps) (g : Gemm) (ar : Arrays) (B : Nat → Int)
    (tid start stop : Nat) (st : State)
    (hkb : g.k_block = g.Ksize) (hK0 : g.Ksize = 0) :
    execRange E g ar B tid start stop st = st := by
  unfold execRange
  have hki : kIndices g.Ksize g.k_block = [] := by
    rw [hkb, hK0]
    simp [kIndices, iceildiv]
  rw [hki]
  rfl

/-- C2: determinism / partition independence of `execute`.  For every
problem shape and quantization parameters, and for every decomposition of
the full WorkItem window `[0, get_window_size())` into non-overlapping
contiguous sub-ranges (`hpart`: the concatenated sub-range positions are a
permutation of the full window, in any order), running `execute` once per
sub-range with arbitrary thread ids yields an output tensor identical to one
single-threaded `execute` over the full window. -/
theorem execute_partition_independence (E : ExtOps) (s : Strat) (args : GemmArgs)
    (qp : Requantize32) (B : Nat → Int) (ar : Arrays) (st0 : State) (tid0 : Nat)
    (jobs : List (Nat × Nat × Nat))
    (hpart : (jobs.flatMap (fun j => List.range' j.2.1 (j.2.2 - j.2.1))).Perm
      (List.range (get_window_size (mkGemm s args qp)))) :
    ∃ stP stF : State,
      runJobs E (set_pretransposed_B_data (mkGemm s args qp) B) ar jobs st0 =
        Except.ok stP ∧
      execute E (set_pretransposed_B_data (mkGemm s args qp) B) ar tid0 0
        (get_window_size (mkGemm s args qp)) st0 = Except.ok stF ∧
      ∀ c : OutIdx, stP.out c = stF.out c := by
  have hB : (set_pretransposed_B_data (mkGemm s args qp) B).B_transposed = some B := rfl
  have hkb : (set_pretransposed_B_data (mkGemm s args qp) B).k_block =
      (set_pretransposed_B_data (mkGemm s args qp) B).Ksize := rfl
  refine ⟨_, _, runJobs_eq_foldl E _ ar B hB jobs st0, rfl, ?_⟩
  intro c
  rcases Nat.eq_zero_or_pos args.Ksize with hK0 | hK
  · -- K = 0: the K loop never runs; both runs leave the state unchanged.
    have hid : ∀ (tid a b : Nat) (st : State),
        execRange E (set_pretransposed_B_data (mkGemm s args qp) B) ar B tid a b st = st :=
      fun tid a b st => execRange_eq_id_of_K0 E _ ar B tid a b st hkb hK0
    have hjobs : ∀ (js : List (Nat × Nat × Nat)) (st : State),
        js.foldl (fun st2 j =>
          execRange E (set_pretransposed_B_data (mkGemm s args qp) B) ar B
            j.1 j.2.1 j.2.2 st2) st = st := by
      intro js
      induction js with
      | nil => intro st; rfl
      | cons j js ih => intro st; rw [List.foldl_cons, hid]; exact ih st
    rw [hjobs, hid]
  · -- K ≥ 1: reduce both runs to folds over (threadid, position) pairs and
    -- compare them cell by cell through the unique owning WorkItem.
    have hsnd : (jobPairs jobs).map Prod.snd =
        jobs.flatMap (fun j => List.range' j.2.1 (j.2.2 - j.2.1)) := by
      simp [jobPairs, List.map_flatMap, List.map_map, Function.comp]
    have hnd1 : ((jobPairs jobs).map Prod.snd).Nodup := by
      rw [hsnd]
      exact hpart.nodup_iff.mpr (List.nodup_range _)
    have hfull : ((List.range' 0 (get_window_size (mkGemm s args qp) - 0)).map
        (fun pos => (tid0, pos))).map Prod.snd =
        List.range' 0 (get_window_size (mkGemm s args qp)) := by
      simp [List.map_map, Function.comp]
    have hnd2 : (((List.range' 0 (get_window_size (mkGemm s args qp) - 0)).map
        (fun pos => (tid0, pos))).map Prod.snd).Nodup := by
      rw [hfull]
      exact List.nodup_range' _ _
    rw [foldl_jobs_eq_foldl_pairs E _ ar B hkb hK jobs st0,
      execRange_eq_foldl E _ ar B tid0 0 _ st0 hkb hK,
      foldl_pairStep_out E _ ar B _ _ st0 c hnd1,
      foldl_pairStep_out E _ ar B _ _ st0 c hnd2]
    have hmem : ∀ x, x ∈ (jobPairs jobs).map Prod.snd ↔
        x ∈ ((List.range' 0 (get_window_size (mkGemm s args qp) - 0)).map
          (fun pos => (tid0, pos))).map Prod.snd := by
      intro x
      rw [hsnd, hfull, ← List.range_eq_range']
      exact hpart.mem_iff
    have huniq : ∀ x y,
        (fun pos => decide (inCells (set_pretransposed_B_data (mkGemm s args qp) B) pos c)) x
            = true →
        (fun pos => decide (inCells (set_pretransposed_B_data (mkGemm s args qp) B) pos c)) y
            = true → x = y :=
      fun x y hx hy =>
        inCells_disjoint _ (of_decide_eq_true hx) (of_decide_eq_true hy)
    have hfind := find?_congr_unique hmem huniq
    rw [find?_map_snd, find?_map_snd] at hfind
    cases o1 : (jobPairs jobs).find?
        (fun tp => decide (inCells (set_pretransposed_B_data (mkGemm s args qp) B) tp.2 c)) with
    | none =>
      cases o2 : ((List.range' 0 (get_window_size (mkGemm s args qp) - 0)).map
          (fun pos => (tid0, pos))).find?
          (fun tp => decide (inCells (set_pretransposed_B_data (mkGemm s args qp) B) tp.2 c)) with
      | none => rfl
      | some tq => rw [o1, o2] at hfind; simp at hfind
    | some tp =>
      cases o2 : ((List.range' 0 (get_window_size (mkGemm s args qp) - 0)).map
          (fun pos => (tid0, pos))).find?
          (fun tp => decide (inCells (set_pretransposed_B_data (mkGemm s args qp) B) tp.2 c)) with
      | none => rw [o1, o2] at hfind; simp at hfind
      | some tq =>
        rw [o1, o2] at hfind
        simp only [Option.map_some'] at hfind
        dsimp only
        rw [Option.some.injEq] at hfind
        rw [hfind]

end ArmGemm

namespace ArmGemm

theorem execute_partition_independence_witness :
    ∃ stP stF : State,
      runJobs cExt (set_pretransposed_B_data (mkGemm cStrat cArgs cQp) cB) cArrays
          [(1, 2, 4), (0, 0, 2)] cState = Except.ok stP ∧
      execute cExt (set_pretransposed_B_data (mkGemm cStrat cArgs cQp) cB) cArrays 0 0
          (get_window_size (mkGemm cStrat cArgs cQp)) cState = Except.ok stF ∧
      ∀ c : OutIdx, stP.out c = stF.out c :=
  execute_partition_independence cExt cStrat cArgs cQp cB cArrays cState 0
    [(1, 2, 4), (0, 0, 2)] (by decide)

end ArmGemm

namespace ArmGemm

/-! ### The Weight Packer layout (`pretranspose_B_array`, lines 278-305)

The packing loop appends one fixed-size panel per (multi, k-block, n-block)
triple, in that nesting order, advancing the buffer pointer by the panel
size each time (`buffer += size`).  `pretranspose_B_layout` records, for
each panel, the cumulative element offset at which it is written. -/

/-- Size (in elements) of the packed panel for the block starting at
`(k0, x0)`: `roundup(xmax-x0, out_width) * roundup(kmax-k0, k_unroll)`
(lines 290-296). -/
def panelSize (g : Gemm) (k0 x0 : Nat) : Nat :=
  roundup (min (x0 + g.n_block) g.Nsize - x0) g.s.out_width *
    roundup (min (k0 + g.k_block) g.Ksize - k0) g.s.k_unroll

/-- The N-block starting offsets visited by `for (x0 = 0; x0 < N; x0 += nb)`
(line 293; well defined because `n_block ≥ 1`). -/
def nIndices (Nsize n_block : Nat) : List Nat :=
  (List.range (iceildiv Nsize n_block)).map (· * n_block)

/-- The packing order of lines 288-304: multi-major, then k-block, then
n-block. -/
def panels (g : Gemm) : List (Nat × Nat × Nat) :=
  (List.range g.nmulti).flatMap (fun multi =>
    (kIndices g.Ksize g.k_block).flatMap (fun k0 =>
      (nIndices g.Nsize g.n_block).map (fun x0 => (multi, k0, x0))))

/-- `buffer += size` accumulation: pair every panel with the cumulative
offset at which `PrepareB` writes it. -/
def layoutAux (g : Gemm) : List (Nat × Nat × Nat) → Nat → List ((Nat × Nat × Nat) × Nat)
  | [], _ => []
  | t :: ts, off => (t, off) :: layoutAux g ts (off + panelSize g t.2.1 t.2.2)

/-- The full panel layout written by `pretranspose_B_array` (offsets in
elements from the start of the packed-panel region, i.e. after the
column-bias region). -/
def pretranspose_B_layout (g : Gemm) : List ((Nat × Nat × Nat) × Nat) :=
  layoutAux g (panels g) 0

/-- Total size of a list of panels. -/
def panelSizes (g : Gemm) (l : List (Nat × Nat × Nat)) : Nat :=
  (l.map (fun t => panelSize g t.2.1 t.2.2)).sum

theorem panelSizes_append (g : Gemm) (l1 l2 : List (Nat × Nat × Nat)) :
    panelSizes g (l1 ++ l2) = panelSizes g l1 + panelSizes g l2 := by
  simp [panelSizes]

theorem layoutAux_append (g : Gemm) (l1 l2 : List (Nat × Nat × Nat)) (off : Nat) :
    layoutAux g (l1 ++ l2) off =
      layoutAux g l1 off ++ layoutAux g l2 (off + panelSizes g l1) := by
  induction l1 generalizing off with
  | nil => simp [layoutAux, panelSizes]
  | cons t ts ih =>
    show (t, off) :: layoutAux g (ts ++ l2) (off + panelSize g t.2.1 t.2.2) =
      (t, off) :: (layoutAux g ts (off + panelSize g t.2.1 t.2.2) ++
        layoutAux g l2 (off + panelSizes g (t :: ts)))
    rw [ih]
    have h : off + panelSize g t.2.1 t.2.2 + panelSizes g ts =
        off + panelSizes g (t :: ts) := by
      simp only [panelSizes, List.map_cons, List.sum_cons]
      omega
    rw [h]

theorem layout_mem (g : Gemm) (l1 : List (Nat × Nat × Nat)) (t : Nat × Nat × Nat)
    (rest : List (Nat × Nat × Nat)) :
    (t, panelSizes g l1) ∈ layoutAux g (l1 ++ t :: rest) 0 := by
  rw [layoutAux_append]
  apply List.mem_append_right
  rw [Nat.zero_add]
  show _ ∈ (t, panelSizes g l1) :: _
  exact List.mem_cons_self _ _

theorem kIndices_self (K : Nat) (hK : 1 ≤ K) : kIndices K K = [0] := by
  unfold kIndices iceildiv
  have h1 : (K + K - 1) / K = 1 := by
    rw [Nat.div_eq_of_lt_le] <;> omega
  rw [h1]
  simp [List.range_succ]

end ArmGemm

namespace ArmGemm

theorem sum_map_mul (l : List Nat) (f : Nat → Nat) (r : Nat) :
    ((l.map (fun i => f i * r)).sum) = (l.map f).sum * r := by
  induction l with
  | nil => simp
  | cons a l ih => simp [ih, Nat.add_mul]

/-- The rounded extents of all N-blocks of `[0, N)` (block size `nb`, a
positive multiple of `ow`) sum to `roundup N ow`: packing panel sizes add up
to the packed region the Execution Engine assumes per (multi, k-block). -/
theorem sum_roundup_blocks {nb ow : Nat} (hnb : 1 ≤ nb) (hdvd : ow ∣ nb) :
    ∀ N : Nat,
      ((List.range (iceildiv N nb)).map
        (fun i => roundup (min (i * nb + nb) N - i * nb) ow)).sum = roundup N ow := by
  have how : 1 ≤ ow := by
    rcases Nat.eq_zero_or_pos ow with h | h
    · subst h
      have := Nat.eq_zero_of_zero_dvd hdvd
      omega
    · exact h
  intro N
  induction N using Nat.strong_induction_on with
  | _ N ih =>
    rcases Nat.eq_zero_or_pos N with hN0 | hN1
    · subst hN0
      have h1 : iceildiv 0 nb = 0 := by
        unfold iceildiv
        have e : 0 + nb - 1 = nb - 1 := by omega
        rw [e, Nat.div_eq_of_lt (by omega)]
      have h2 : roundup 0 ow = 0 := by
        unfold roundup iceildiv
        have e : 0 + ow - 1 = ow - 1 := by omega
        rw [e, Nat.div_eq_of_lt (by omega), Nat.zero_mul]
      rw [h1, h2]
      simp
    · by_cases hle : N ≤ nb
      · -- a single block covering all of [0, N)
        have hic : iceildiv N nb = 1 := by
          unfold iceildiv
          rw [Nat.div_eq_of_lt_le] <;> omega
        rw [hic, show List.range 1 = [0] from by simp [List.range_succ]]
        simp only [List.map_cons, List.map_nil, List.sum_cons, List.sum_nil]
        have e : min (0 * nb + nb) N - 0 * nb = N := by omega
        rw [e, Nat.add_zero]
      · -- peel off the first (full) block and recurse on N - nb
        push_neg at hle
        have hic : iceildiv N nb = iceildiv (N - nb) nb + 1 := by
          unfold iceildiv
          have e : N + nb - 1 = (N - nb + nb - 1) + 1 * nb := by omega
          rw [e, Nat.add_mul_div_right _ _ (by omega)]
        rw [hic, List.range_succ_eq_map, List.map_cons, List.sum_cons]
        have hhead : min (0 * nb + nb) N - 0 * nb = nb := by omega
        rw [hhead, roundup_eq_self_of_dvd hdvd, List.map_map]
        have hcong : (List.range (iceildiv (N - nb) nb)).map
            ((fun i => roundup (min (i * nb + nb) N - i * nb) ow) ∘ Nat.succ) =
            (List.range (iceildiv (N - nb) nb)).map
            (fun i => roundup (min (i * nb + nb) (N - nb) - i * nb) ow) := by
          apply List.map_congr_left
          intro i _
          simp only [Function.comp_apply]
          congr 1
          have e : Nat.succ i * nb = i * nb + nb := Nat.succ_mul i nb
          rw [e]
          omega
        rw [hcong, ih (N - nb) (by omega)]
        have hr := @roundup_add_dvd (N - nb) nb ow how hdvd
        have e : N - nb + nb = N := by omega
        rw [e] at hr
        omega

/-- The first `nIdx` N-blocks (all full) of `[0, N)` have rounded extents
summing to `nIdx * nb`. -/
theorem sum_roundup_blocks_prefix {nb ow N : Nat} (hnb : 1 ≤ nb) (hdvd : ow ∣ nb)
    (hN : 1 ≤ N) (nIdx : Nat) (hlt : nIdx < iceildiv N nb) :
    ((List.range nIdx).map
      (fun i => roundup (min (i * nb + nb) N - i * nb) ow)).sum = nIdx * nb := by
  induction nIdx with
  | zero => simp
  | succ n ihn =>
    rw [List.range_succ, List.map_append, List.sum_append, ihn (by omega)]
    simp only [List.map_cons, List.map_nil, List.sum_cons, List.sum_nil]
    have hub : (iceildiv N nb - 1) * nb ≤ N - 1 := by
      rw [iceildiv_eq_pred_div_succ hnb hN, Nat.add_sub_cancel]
      exact Nat.div_mul_le_self _ _
    have hmul : (n + 1) * nb ≤ (iceildiv N nb - 1) * nb :=
      Nat.mul_le_mul_right _ (by omega)
    have hfull : min (n * nb + nb) N - n * nb = nb := by
      have e : (n + 1) * nb = n * nb + nb := by ring
      rw [e] at hmul
      omega
    rw [hfull, roundup_eq_self_of_dvd hdvd]
    ring

end ArmGemm

namespace ArmGemm

/-- All panels of one multi (the body of the outer packing loop). -/
def multiBlock (g : Gemm) (multi : Nat) : List (Nat × Nat × Nat) :=
  (kIndices g.Ksize g.k_block).flatMap (fun k0 =>
    (nIndices g.Nsize g.n_block).map (fun x0 => (multi, k0, x0)))

theorem panels_eq_flatMap (g : Gemm) :
    panels g = (List.range g.nmulti).flatMap (multiBlock g) := rfl

/-- One multi's panels occupy exactly
`roundup(N, out_width) * roundup(K, k_unroll)` elements — the per-multi
stride of the Execution Engine's addressing arithmetic. -/
theorem multiBlock_panelSizes (g : Gemm) (multi : Nat)
    (hki : kIndices g.Ksize g.k_block = [0])
    (hkb : g.k_block = g.Ksize)
    (hnb : 1 ≤ g.n_block) (hdvd : g.s.out_width ∣ g.n_block) :
    panelSizes g (multiBlock g multi) =
      roundup g.Nsize g.s.out_width * roundup g.Ksize g.s.k_unroll := by
  unfold multiBlock
  rw [hki]
  rw [List.flatMap_cons, List.flatMap_nil, List.append_nil]
  unfold panelSizes nIndices
  rw [List.map_map, List.map_map]
  have hcong : (List.range (iceildiv g.Nsize g.n_block)).map
      (((fun t => panelSize g t.2.1 t.2.2) ∘ (fun x0 => (multi, 0, x0))) ∘ (· * g.n_block)) =
      (List.range (iceildiv g.Nsize g.n_block)).map
      (fun i => roundup (min (i * g.n_block + g.n_block) g.Nsize - i * g.n_block)
        g.s.out_width * roundup g.Ksize g.s.k_unroll) := by
    apply List.map_congr_left
    intro i _
    simp only [Function.comp_apply, panelSize, hkb, Nat.zero_add, Nat.min_self, Nat.sub_zero]
  rw [hcong, sum_map_mul, sum_roundup_blocks hnb hdvd]

/-- The panels of the first `m` multis occupy `m` per-multi strides. -/
theorem flatMap_multiBlock_panelSizes (g : Gemm)
    (hki : kIndices g.Ksize g.k_block = [0])
    (hkb : g.k_block = g.Ksize)
    (hnb : 1 ≤ g.n_block) (hdvd : g.s.out_width ∣ g.n_block) :
    ∀ m : Nat, panelSizes g ((List.range m).flatMap (multiBlock g)) =
      m * (roundup g.Nsize g.s.out_width * roundup g.Ksize g.s.k_unroll) := by
  intro m
  induction m with
  | zero => simp [panelSizes]
  | succ m ih =>
    rw [List.range_succ, List.flatMap_append, panelSizes_append, ih]
    have h1 : panelSizes g ([m].flatMap (multiBlock g)) =
        panelSizes g (multiBlock g m) := by
      simp [List.flatMap_cons, List.flatMap_nil]
    rw [h1, multiBlock_panelSizes g m hki hkb hnb hdvd]
    ring

theorem range_split {m c : Nat} (h : m < c) :
    ∃ rest, List.range c = List.range m ++ m :: rest := by
  have e1 : c = m + ((c - m - 1) + 1) := by omega
  refine ⟨(List.range (c - m - 1)).map (fun x => m + Nat.succ x), ?_⟩
  conv_lhs => rw [e1]
  rw [List.range_add, List.range_succ_eq_map, List.map_cons, Nat.add_zero, List.map_map]
  rfl

end ArmGemm

namespace ArmGemm

/-- C1: for every WorkItem of the iteration space (and every `k0` the K loop
visits), the closed-form panel offset the Execution Engine computes
(`bPanelOffset`, lines 210-213) equals the cumulative offset at which
`pretranspose_B_array` wrote that panel — the sum of the sizes
`roundup(xmax-x0, out_width) * roundup(kmax-k0, k_unroll)` of all panels
packed before it in multi-major, then k-block, then n-block order
(`pretranspose_B_layout`). -/
theorem panel_offsets_agree (s : Strat) (args : GemmArgs) (qp : Requantize32)
    (how : 1 ≤ s.out_width) (hN : 1 ≤ args.Nsize) (hK : 1 ≤ args.Ksize)
    (pos k0 : Nat)
    (hpos : pos < get_window_size (mkGemm s args qp))
    (hk0 : k0 ∈ kIndices (mkGemm s args qp).Ksize (mkGemm s args qp).k_block) :
    ((wi_multi (mkGemm s args qp) pos, k0, wi_n0 (mkGemm s args qp) pos),
      bPanelOffset (mkGemm s args qp) (wi_multi (mkGemm s args qp) pos) k0
        (wi_n0 (mkGemm s args qp) pos)
        (roundup (min (k0 + (mkGemm s args qp).k_block) (mkGemm s args qp).Ksize - k0)
          (mkGemm s args qp).s.k_unroll)) ∈
      pretranspose_B_layout (mkGemm s args qp) := by
  set g := mkGemm s args qp with hg
  have hkb : g.k_block = g.Ksize := rfl
  have hKs : g.Ksize = args.Ksize := rfl
  have hki : kIndices g.Ksize g.k_block = [0] := by
    rw [hkb, hKs]
    exact kIndices_self args.Ksize hK
  have hk00 : k0 = 0 := by
    rw [hki] at hk0
    simpa using hk0
  subst hk00
  obtain ⟨hnb0, hdvd0⟩ := compute_n_block_pos_dvd_aux s args how hN
  have hnb : 1 ≤ g.n_block := hnb0
  have hdvd : g.s.out_width ∣ g.n_block := hdvd0
  have hNe : g.Nsize = args.Nsize := rfl
  have hgN : 1 ≤ g.Nsize := by rw [hNe]; exact hN
  -- the WorkItem's multi index is within range
  have hmlt : wi_multi g pos < g.nmulti := by
    have hP := hpos
    unfold get_window_size NDRange4.total_size at hP
    unfold wi_multi NDRange4.dim3
    have hnm : g.nmulti = g.window.s3 := rfl
    rw [hnm]
    rcases Nat.eq_zero_or_pos (g.window.s0 * g.window.s1 * g.window.s2) with hz | hpz
    · rw [hz, Nat.zero_mul] at hP
      exact absurd hP (Nat.not_lt_zero _)
    · rw [Nat.div_lt_iff_lt_mul hpz]
      have hcomm := Nat.mul_comm (g.window.s0 * g.window.s1 * g.window.s2) g.window.s3
      rw [← hcomm]
      exact hP
  -- the WorkItem's n-tile index is within range
  have hicd : 1 ≤ iceildiv g.Nsize g.n_block := iceildiv_one_le hnb hgN
  have hs2 : g.window.s2 = iceildiv g.Nsize g.n_block := rfl
  have hnIdx : g.window.dim2 pos < iceildiv g.Nsize g.n_block := by
    unfold NDRange4.dim2
    rw [← hs2]
    exact Nat.mod_lt _ (by rw [hs2]; exact hicd)
  -- split the packing order around the WorkItem's panel
  obtain ⟨restM, hM⟩ := range_split hmlt
  obtain ⟨restN, hN2⟩ := range_split hnIdx
  have hpan : panels g = ((List.range (wi_multi g pos)).flatMap (multiBlock g)) ++
      (multiBlock g (wi_multi g pos) ++ restM.flatMap (multiBlock g)) := by
    rw [panels_eq_flatMap, hM, List.flatMap_append, List.flatMap_cons]
  have hmb : multiBlock g (wi_multi g pos) =
      (((List.range (g.window.dim2 pos)).map (· * g.n_block)).map
        (fun x0 => (wi_multi g pos, 0, x0))) ++
      ((wi_multi g pos, 0, g.window.dim2 pos * g.n_block) ::
        ((restN.map (· * g.n_block)).map (fun x0 => (wi_multi g pos, 0, x0)))) := by
    unfold multiBlock
    rw [hki, List.flatMap_cons, List.flatMap_nil, List.append_nil]
    unfold nIndices
    rw [hN2, List.map_append, List.map_cons, List.map_append, List.map_cons]
  have hmem : ((wi_multi g pos, 0, g.window.dim2 pos * g.n_block),
      panelSizes g (((List.range (wi_multi g pos)).flatMap (multiBlock g)) ++
        (((List.range (g.window.dim2 pos)).map (· * g.n_block)).map
          (fun x0 => (wi_multi g pos, 0, x0))))) ∈ pretranspose_B_layout g := by
    unfold pretranspose_B_layout
    have hshape : panels g =
        (((List.range (wi_multi g pos)).flatMap (multiBlock g)) ++
          (((List.range (g.window.dim2 pos)).map (· * g.n_block)).map
            (fun x0 => (wi_multi g pos, 0, x0)))) ++
        ((wi_multi g pos, 0, g.window.dim2 pos * g.n_block) ::
          (((restN.map (· * g.n_block)).map (fun x0 => (wi_multi g pos, 0, x0))) ++
            restM.flatMap (multiBlock g))) := by
      rw [hpan, hmb]
      simp [List.append_assoc, List.cons_append]
    rw [hshape]
    exact layout_mem g _ _ _
  -- the cumulative offset equals the Execution Engine's closed form
  have eA : panelSizes g ((List.range (wi_multi g pos)).flatMap (multiBlock g)) =
      (wi_multi g pos) * (roundup g.Nsize g.s.out_width * roundup g.Ksize g.s.k_unroll) :=
    flatMap_multiBlock_panelSizes g hki hkb hnb hdvd _
  have ePre : panelSizes g (((List.range (g.window.dim2 pos)).map (· * g.n_block)).map
      (fun x0 => (wi_multi g pos, 0, x0))) =
      (g.window.dim2 pos * g.n_block) * roundup g.Ksize g.s.k_unroll := by
    unfold panelSizes
    rw [List.map_map, List.map_map]
    have hcong : (List.range (g.window.dim2 pos)).map
        (((fun t => panelSize g t.2.1 t.2.2) ∘ (fun x0 => (wi_multi g pos, 0, x0))) ∘
          (· * g.n_block)) =
        (List.range (g.window.dim2 pos)).map
        (fun i => roundup (min (i * g.n_block + g.n_block) g.Nsize - i * g.n_block)
          g.s.out_width * roundup g.Ksize g.s.k_unroll) := by
      apply List.map_congr_left
      intro i _
      simp only [Function.comp_apply, panelSize, hkb, Nat.zero_add, Nat.min_self,
        Nat.sub_zero]
    rw [hcong, sum_map_mul, sum_roundup_blocks_prefix hnb hdvd hgN _ hnIdx]
  have hoff : panelSizes g (((List.range (wi_multi g pos)).flatMap (multiBlock g)) ++
      (((List.range (g.window.dim2 pos)).map (· * g.n_block)).map
        (fun x0 => (wi_multi g pos, 0, x0)))) =
      bPanelOffset g (wi_multi g pos) 0 (wi_n0 g pos)
        (roundup (min (0 + g.k_block) g.Ksize - 0) g.s.k_unroll) := by
    rw [panelSizes_append, eA, ePre]
    unfold bPanelOffset wi_n0
    simp only [hkb, Nat.zero_add, Nat.min_self, Nat.sub_zero, Nat.zero_mul, Nat.add_zero]
  rw [hoff] at hmem
  exact hmem

end ArmGemm

namespace ArmGemm

def wStrat : Strat := ⟨4, 4, 2, 1⟩

def wArgs : GemmArgs :=
  { ci := ⟨32768, 262144⟩, Msize := 5, Nsize := 10, Ksize := 3, nbatches := 2,
    nmulti := 3, cfg := some ⟨0, 4⟩, maxthreads := 2 }

theorem panel_offsets_agree_witness :
    ((wi_multi (mkGemm wStrat wArgs cQp) 35, 0, wi_n0 (mkGemm wStrat wArgs cQp) 35),
      bPanelOffset (mkGemm wStrat wArgs cQp) (wi_multi (mkGemm wStrat wArgs cQp) 35) 0
        (wi_n0 (mkGemm wStrat wArgs cQp) 35)
        (roundup (min (0 + (mkGemm wStrat wArgs cQp).k_block)
            (mkGemm wStrat wArgs cQp).Ksize - 0)
          (mkGemm wStrat wArgs cQp).s.k_unroll)) ∈
      pretranspose_B_layout (mkGemm wStrat wArgs cQp) :=
  panel_offsets_agree wStrat wArgs cQp (by decide) (by decide) (by decide) 35 0
    (by decide) (by decide)

end ArmGemm
